import Mathlib

/-!
Verification of `ticket_speed_threshold.py` (Otsu threshold selection on a
sorted list of speed samples, plus 2-mph histogram binning).

Modelling conventions, chosen to follow the Python/numpy source exactly:

* Speed samples are modelled as rationals (exact arithmetic stands in for
  IEEE doubles; no rounding is modelled).
* numpy produces `nan` for the variance of an empty slice, and arithmetic
  and comparisons propagate `nan` (`0.0 * nan = nan`, `nan < x` is false).
  The value type `FP` therefore has a `nan` and an `inf` constructor next
  to finite rationals: `otsu_method` initialises its running best variance
  to `np.inf` and its running best threshold to `np.nan`, and both can be
  returned unchanged.
* Python slices are read-only: `xs[0:i]` is `List.take i`,
  `xs[i:-1]` is `(List.drop i).dropLast` (the source's right partition
  really does exclude the last element).
* `quantize_to_bins` builds a dict keyed by `range(b, b+2)` objects; two
  such ranges are equal exactly when their start points are, so keys are
  modelled by their (even) integer start. `dict.get` on a missing key
  returns `None` and the subsequent `.append` raises; that failure is
  modelled by `Option` (`none` = the run raises).
-/

/-- A numpy floating-point scalar as this program uses it: `nan`, `+inf`
(the initial best variance), or a finite value (modelled exactly as a
rational). Negative infinity never arises in this program. -/
inductive FP where
  | nan : FP
  | inf : FP
  | val : ℚ → FP
deriving DecidableEq, Repr

/-- IEEE `<` on the values this program compares: any comparison with
`nan` is false, a finite value is less than `+inf`, finite values compare
as rationals. -/
def FP.lt : FP → FP → Bool
  | .nan, _ => false
  | _, .nan => false
  | .inf, _ => false
  | .val _, .inf => true
  | .val a, .val b => decide (a < b)

/-- Multiplication of a finite nonnegative weight `w` by an `FP` value,
as IEEE gives it: `w * nan = nan`; `0 * inf = nan` and `w * inf = inf`
for `w ≠ 0`; finite times finite is exact. In `otsu_method` the weight is
a ratio of lengths, hence nonnegative. -/
def FP.scale (w : ℚ) : FP → FP
  | .nan => .nan
  | .inf => if w = 0 then .nan else .inf
  | .val x => .val (w * x)

/-- IEEE addition on the values this program adds (no `inf + -inf` case
can arise, there is no negative infinity): `nan` absorbs, otherwise `inf`
absorbs, otherwise exact. -/
def FP.add : FP → FP → FP
  | .nan, _ => .nan
  | _, .nan => .nan
  | .inf, _ => .inf
  | _, .inf => .inf
  | .val a, .val b => .val (a + b)

/-- Population variance of a nonempty list, the formula `np.var` computes:
mean of squared deviations from the mean. (On `[]` this formula is not
used; see `npVar`.) -/
def listVar (xs : List ℚ) : ℚ :=
  let n : ℚ := (xs.length : ℚ)
  let m : ℚ := xs.sum / n
  (xs.map (fun x => (x - m) ^ 2)).sum / n

/-- `np.var`: population variance for a nonempty list, `nan` for the empty
list (numpy emits a RuntimeWarning and returns `nan`; it does not raise). -/
def npVar (xs : List ℚ) : FP :=
  if xs.isEmpty then FP.nan else FP.val (listVar xs)

/-- The mixed (weighted) variance `otsu_method` computes at split index
`i`, following lines 32-38 of the source: left slice `xs[0:i]`, right
slice `xs[i:-1]` (which drops the final element), weights
`len(slice)/len(xs)`. -/
def mixedVariance (xs : List ℚ) (i : ℕ) : FP :=
  let n : ℚ := (xs.length : ℚ)
  let under : List ℚ := xs.take i
  let over : List ℚ := (xs.drop i).dropLast
  FP.add (FP.scale ((under.length : ℚ) / n) (npVar under))
         (FP.scale ((over.length : ℚ) / n) (npVar over))

/-- The finite rational value of `mixedVariance xs i`, meaningful when
both slices are nonempty (`1 ≤ i` and `i + 2 ≤ xs.length`). -/
def mvq (xs : List ℚ) (i : ℕ) : ℚ :=
  ((xs.take i).length : ℚ) / (xs.length : ℚ) * listVar (xs.take i)
    + (((xs.drop i).dropLast).length : ℚ) / (xs.length : ℚ)
      * listVar ((xs.drop i).dropLast)

/-- The mutable locals of `otsu_method`, plus the input list itself so the
embedding records what happens to it: every statement of the source only
reads `all_thresholds` (slices, `len`, indexing), so each step carries the
`input` field through unchanged. -/
structure OtsuState where
  input : List ℚ
  all_variances : List FP
  best_mixed_variance : FP
  best_threshold : FP
deriving Repr

/-- One iteration of the `for threshold_index in range(0, len(...))` loop:
compute the mixed variance, append it to `all_variances`, and update the
running best on a strictly-less comparison. -/
def otsuStep (s : OtsuState) (i : ℕ) : OtsuState :=
  let mv := mixedVariance s.input i
  let s' : OtsuState := { s with all_variances := s.all_variances ++ [mv] }
  if FP.lt mv s'.best_mixed_variance then
    { s' with best_mixed_variance := mv
              best_threshold := FP.val (s.input.getD i 0) }
  else s'

/-- The whole loop of `otsu_method`, starting from
`all_variances = []`, `best_mixed_variance = np.inf`,
`best_threshold = np.nan`. -/
def otsuRun (xs : List ℚ) : OtsuState :=
  (List.range xs.length).foldl otsuStep ⟨xs, [], FP.inf, FP.nan⟩

/-- `otsu_method`: returns
`(best_threshold, best_mixed_variance, all_variances)`. -/
def otsu_method (xs : List ℚ) : FP × FP × List FP :=
  let s := otsuRun xs
  (s.best_threshold, s.best_mixed_variance, s.all_variances)

/-- Split indices at which both partitions of the source are nonempty, so
the mixed variance is a finite value: the left slice `xs[0:i]` needs
`1 ≤ i`, the right slice `xs[i:-1]` needs `i + 2 ≤ xs.length`. -/
def finiteSplit (xs : List ℚ) (i : ℕ) : Prop :=
  1 ≤ i ∧ i + 2 ≤ xs.length

instance (xs : List ℚ) (i : ℕ) : Decidable (finiteSplit xs i) := by
  unfold finiteSplit; infer_instance

/-- The spec's formula for the mixed variance at split `i` (§4.1):
`leftWeight = i/N`, `leftVariance = variance(dataset[0..i))`,
`rightWeight = (N-i)/N`, `rightVariance = variance(dataset[i..N))`, with
variance of an empty or single-element slice equal to 0. The right-hand
partition keeps the last element, unlike the source's slice. -/
def specMixedVariance (xs : List ℚ) (i : ℕ) : ℚ :=
  let n : ℚ := (xs.length : ℚ)
  ((i : ℚ) / n) * listVar (xs.take i)
    + ((n - (i : ℚ)) / n) * listVar (xs.drop i)

/-! ## Embedding of `quantize_to_bins`

The dict keyed by `range(b, b+2)` objects is modelled as an association
list in insertion order, keyed by the (even) start `b`; two Python ranges
`range(b, b+2)` are equal exactly when their starts are. A failed
`dict.get(key).append(...)` (missing key, so `.get` returns `None` and
`.append` raises `AttributeError`) is modelled by `none`. -/

/-- `min_speed_range` (line 69): `floor(xs[0])` rounded down to an even
number. Python's `% 2.0` on the integer floor agrees with `Int.emod _ 2`
(both are 0 or 1). Defined for a nonempty list, as `quantize_to_bins`
indexes `speed_data[0]` unconditionally. -/
def minSpeedRange (xs : List ℚ) : ℤ :=
  let x := xs.getD 0 0
  if Int.emod ⌊x⌋ 2 = 0 then ⌊x⌋ else ⌊x - 1⌋

/-- `max_speed_range` (line 70): `floor(xs[-1])` rounded up to an even
number (`floor(x + 1)` when the floor is odd). -/
def maxSpeedRange (xs : List ℚ) : ℤ :=
  let x := xs.getLastD 0
  if Int.emod ⌊x⌋ 2 = 0 then ⌊x⌋ else ⌊x + 1⌋

/-- The keys created by the first `while (base_speed_range <
max_speed_range)` loop (lines 81-86): starts `minR, minR + 2, ...`, as
long as they are strictly below `maxR`. The while loop runs
`⌈(maxR - minR)/2⌉` times (0 when `maxR ≤ minR`); `(d + 1) / 2` is that
ceiling for integer `d`. -/
def binKeys (minR maxR : ℤ) : List ℤ :=
  (List.range ((maxR - minR + 1) / 2).toNat).map (fun k => minR + 2 * (k : ℤ))

/-- The empty bins dictionary: each key maps to `[]`, keys in insertion
order. -/
def mkBinsDict (keys : List ℤ) : List (ℤ × List ℚ) :=
  keys.map (fun k => (k, ([] : List ℚ)))

/-- The per-sample key computation (line 90): `floor(v)` if even, else
`floor(v - 1)`. -/
def sampleKey (v : ℚ) : ℤ :=
  if Int.emod ⌊v⌋ 2 = 0 then ⌊v⌋ else ⌊v - 1⌋

/-- `total_bins_dict.get(key).append(speed_value)` (line 94): append `v`
to the bin at key `k`; if the key is absent, `.get` returns `None` and the
append raises, modelled by `none`. -/
def dictAppend : List (ℤ × List ℚ) → ℤ → ℚ → Option (List (ℤ × List ℚ))
  | [], _, _ => none
  | (k', vs) :: rest, k, v =>
    if k' = k then some ((k', vs ++ [v]) :: rest)
    else (dictAppend rest k v).map (fun d => (k', vs) :: d)

/-- The `for speed_value in speed_data` placement loop (lines 89-94):
stops at the first sample whose key is missing from the dictionary. -/
def placeAll (d : List (ℤ × List ℚ)) : List ℚ → Option (List (ℤ × List ℚ))
  | [] => some d
  | v :: rest =>
    match dictAppend d (sampleKey v) v with
    | none => none
    | some d' => placeAll d' rest

/-- `total_bins_dict.get(range(base, base+2))` in the harvest loop
(line 101): first binding with the given key, `none` when absent. -/
def dictGet : List (ℤ × List ℚ) → ℤ → Option (List ℚ)
  | [], _ => none
  | (k', vs) :: rest, k => if k' = k then some vs else dictGet rest k

/-- `quantize_to_bins` (lines 62-105): build the keyed empty bins, place
every sample (raising — `none` — when a sample's key is missing), then
harvest the bins in key order and return them with `min_speed_range`. -/
def quantize_to_bins (xs : List ℚ) :
    Option (List (Option (List ℚ)) × ℤ) :=
  let minR := minSpeedRange xs
  let maxR := maxSpeedRange xs
  let keys := binKeys minR maxR
  match placeAll (mkBinsDict keys) xs with
  | none => none
  | some d => some (keys.map (dictGet d), minR)

/-! ## Basic computation lemmas -/

theorem FP.add_nan_right (x : FP) : FP.add x FP.nan = FP.nan := by
  cases x <;> rfl

theorem FP.add_nan_left (x : FP) : FP.add FP.nan x = FP.nan := by
  cases x <;> rfl

theorem FP.scale_nan (w : ℚ) : FP.scale w FP.nan = FP.nan := rfl

theorem FP.lt_nan_left (y : FP) : FP.lt FP.nan y = false := by
  cases y <;> rfl

theorem npVar_nil : npVar [] = FP.nan := rfl

theorem npVar_of_ne_nil (xs : List ℚ) (h : xs ≠ []) :
    npVar xs = FP.val (listVar xs) := by
  cases xs with
  | nil => exact absurd rfl h
  | cons a t => rfl

theorem listVar_singleton (q : ℚ) : listVar [q] = 0 := by
  simp [listVar]

/-- At split 0 the left slice is empty, `np.var([])` is `nan`, and the
`nan` propagates through `0 * nan` and the addition. -/
theorem mixedVariance_zero (xs : List ℚ) : mixedVariance xs 0 = FP.nan := by
  simp only [mixedVariance, List.take_zero, npVar_nil, FP.scale_nan]
  exact FP.add_nan_left _

/-- When the right slice `xs[i:-1]` is empty (`xs.length ≤ i + 1`), its
`nan` variance propagates to the mixed variance. -/
theorem mixedVariance_of_short (xs : List ℚ) (i : ℕ)
    (h : xs.length ≤ i + 1) : mixedVariance xs i = FP.nan := by
  have hover : (xs.drop i).dropLast = [] := by
    have : ((xs.drop i).dropLast).length = 0 := by
      rw [List.length_dropLast, List.length_drop]; omega
    exact List.eq_nil_of_length_eq_zero this
  simp only [mixedVariance, hover, npVar_nil, FP.scale_nan]
  exact FP.add_nan_right _

theorem mixedVariance_nan_of_not_finite (xs : List ℚ) (i : ℕ)
    (h : ¬ finiteSplit xs i) : mixedVariance xs i = FP.nan := by
  unfold finiteSplit at h
  push_neg at h
  by_cases h0 : i = 0
  · subst h0; exact mixedVariance_zero xs
  · exact mixedVariance_of_short xs i (by omega)

/-- At a split with both partitions nonempty, the mixed variance is the
finite value `mvq`. -/
theorem mixedVariance_of_finite (xs : List ℚ) (i : ℕ)
    (h : finiteSplit xs i) : mixedVariance xs i = FP.val (mvq xs i) := by
  obtain ⟨h1, h2⟩ := h
  have hunder : xs.take i ≠ [] := by
    have : 0 < (xs.take i).length := by
      rw [List.length_take]; omega
    exact List.ne_nil_of_length_pos this
  have hover : (xs.drop i).dropLast ≠ [] := by
    have : 0 < ((xs.drop i).dropLast).length := by
      rw [List.length_dropLast, List.length_drop]; omega
    exact List.ne_nil_of_length_pos this
  simp only [mixedVariance, mvq]
  rw [npVar_of_ne_nil _ hunder, npVar_of_ne_nil _ hover]
  rfl

/-! ## The loop invariant of `otsu_method` -/

/-- The loop state after the first `k` iterations. -/
def otsuRunTo (xs : List ℚ) (k : ℕ) : OtsuState :=
  (List.range k).foldl otsuStep ⟨xs, [], FP.inf, FP.nan⟩

theorem otsuRun_eq_runTo (xs : List ℚ) : otsuRun xs = otsuRunTo xs xs.length := rfl

theorem otsuRunTo_succ (xs : List ℚ) (k : ℕ) :
    otsuRunTo xs (k + 1) = otsuStep (otsuRunTo xs k) k := by
  unfold otsuRunTo
  rw [List.range_succ, List.foldl_append]
  rfl

theorem otsuStep_input (s : OtsuState) (i : ℕ) :
    (otsuStep s i).input = s.input := by
  simp only [otsuStep]
  split <;> rfl

theorem otsuRunTo_input (xs : List ℚ) (k : ℕ) :
    (otsuRunTo xs k).input = xs := by
  induction k with
  | zero => rfl
  | succ k ih => rw [otsuRunTo_succ, otsuStep_input]; exact ih

theorem otsuStep_variances (s : OtsuState) (i : ℕ) :
    (otsuStep s i).all_variances
      = s.all_variances ++ [mixedVariance s.input i] := by
  simp only [otsuStep]
  split <;> rfl

theorem otsuStep_best_of_true (s : OtsuState) (i : ℕ)
    (h : FP.lt (mixedVariance s.input i) s.best_mixed_variance = true) :
    (otsuStep s i).best_mixed_variance = mixedVariance s.input i ∧
    (otsuStep s i).best_threshold = FP.val (s.input.getD i 0) := by
  simp only [otsuStep, h]
  exact ⟨rfl, rfl⟩

theorem otsuStep_best_of_false (s : OtsuState) (i : ℕ)
    (h : FP.lt (mixedVariance s.input i) s.best_mixed_variance = false) :
    (otsuStep s i).best_mixed_variance = s.best_mixed_variance ∧
    (otsuStep s i).best_threshold = s.best_threshold := by
  simp only [otsuStep, h]
  exact ⟨rfl, rfl⟩

/-- The running-best invariant of the loop: after `k` iterations either no
split with two nonempty partitions has been seen (the best fields still
hold their `np.nan` / `np.inf` initialisers — `nan` mixed variances never
win the strictly-less comparison), or the best fields hold the value and
the threshold of the first index among the first `k` that attains the
minimum finite mixed variance. -/
theorem otsuRunTo_best (xs : List ℚ) (k : ℕ) :
    ((∀ j, j < k → ¬ finiteSplit xs j) ∧
      (otsuRunTo xs k).best_threshold = FP.nan ∧
      (otsuRunTo xs k).best_mixed_variance = FP.inf)
    ∨ (∃ i, i < k ∧ finiteSplit xs i ∧
        (otsuRunTo xs k).best_threshold = FP.val (xs.getD i 0) ∧
        (otsuRunTo xs k).best_mixed_variance = FP.val (mvq xs i) ∧
        (∀ j, j < k → finiteSplit xs j → mvq xs i ≤ mvq xs j) ∧
        (∀ j, j < i → finiteSplit xs j → mvq xs i < mvq xs j)) := by
  induction k with
  | zero =>
    left
    exact ⟨fun j hj => absurd hj (Nat.not_lt_zero j), rfl, rfl⟩
  | succ k ih =>
    rw [otsuRunTo_succ]
    by_cases hf : finiteSplit xs k
    · have hmv : mixedVariance (otsuRunTo xs k).input k = FP.val (mvq xs k) := by
        rw [otsuRunTo_input]
        exact mixedVariance_of_finite xs k hf
      rcases ih with ⟨hnone, hthr, hvar⟩ | ⟨i, hik, hfi, hthr, hvar, hmin, hfirst⟩
      · -- best is still np.inf: a finite value wins the comparison
        have hlt : FP.lt (mixedVariance (otsuRunTo xs k).input k)
            (otsuRunTo xs k).best_mixed_variance = true := by
          rw [hmv, hvar]; rfl
        obtain ⟨hv, ht⟩ := otsuStep_best_of_true _ _ hlt
        right
        refine ⟨k, Nat.lt_succ_self k, hf, ?_, ?_, ?_, ?_⟩
        · rw [ht, otsuRunTo_input]
        · rw [hv, hmv]
        · intro j hj hfj
          rcases Nat.lt_succ_iff_lt_or_eq.mp hj with hj' | rfl
          · exact absurd hfj (hnone j hj')
          · exact le_refl _
        · intro j hj hfj
          exact absurd hfj (hnone j hj)
      · -- best holds the first running minimum among the first k indices
        by_cases hlt : mvq xs k < mvq xs i
        · have hltb : FP.lt (mixedVariance (otsuRunTo xs k).input k)
              (otsuRunTo xs k).best_mixed_variance = true := by
            rw [hmv, hvar]
            simp [FP.lt, hlt]
          obtain ⟨hv, ht⟩ := otsuStep_best_of_true _ _ hltb
          right
          refine ⟨k, Nat.lt_succ_self k, hf, ?_, ?_, ?_, ?_⟩
          · rw [ht, otsuRunTo_input]
          · rw [hv, hmv]
          · intro j hj hfj
            rcases Nat.lt_succ_iff_lt_or_eq.mp hj with hj' | rfl
            · exact le_of_lt (lt_of_lt_of_le hlt (hmin j hj' hfj))
            · exact le_refl _
          · intro j hj hfj
            exact lt_of_lt_of_le hlt (hmin j hj hfj)
        · have hltb : FP.lt (mixedVariance (otsuRunTo xs k).input k)
              (otsuRunTo xs k).best_mixed_variance = false := by
            rw [hmv, hvar]
            simp [FP.lt, hlt]
          obtain ⟨hv, ht⟩ := otsuStep_best_of_false _ _ hltb
          right
          refine ⟨i, Nat.lt_succ_of_lt hik, hfi, ?_, ?_, ?_, hfirst⟩
          · rw [ht, hthr]
          · rw [hv, hvar]
          · intro j hj hfj
            rcases Nat.lt_succ_iff_lt_or_eq.mp hj with hj' | rfl
            · exact hmin j hj' hfj
            · exact le_of_not_lt hlt
    · -- the mixed variance at k is nan; nan never wins, nothing changes
      have hmv : mixedVariance (otsuRunTo xs k).input k = FP.nan := by
        rw [otsuRunTo_input]
        exact mixedVariance_nan_of_not_finite xs k hf
      have hltb : FP.lt (mixedVariance (otsuRunTo xs k).input k)
          (otsuRunTo xs k).best_mixed_variance = false := by
        rw [hmv]
        exact FP.lt_nan_left _
      obtain ⟨hv, ht⟩ := otsuStep_best_of_false _ _ hltb
      rcases ih with ⟨hnone, hthr, hvar⟩ | ⟨i, hik, hfi, hthr, hvar, hmin, hfirst⟩
      · left
        refine ⟨?_, by rw [ht, hthr], by rw [hv, hvar]⟩
        intro j hj
        rcases Nat.lt_succ_iff_lt_or_eq.mp hj with hj' | rfl
        · exact hnone j hj'
        · exact hf
      · right
        refine ⟨i, Nat.lt_succ_of_lt hik, hfi, by rw [ht, hthr],
          by rw [hv, hvar], ?_, hfirst⟩
        intro j hj hfj
        rcases Nat.lt_succ_iff_lt_or_eq.mp hj with hj' | rfl
        · exact hmin j hj' hfj
        · exact absurd hfj hf

/-- The curve built by the loop: one entry per iteration, in iteration
order, each the mixed variance at its index. -/
theorem otsuRunTo_variances (xs : List ℚ) (k : ℕ) :
    (otsuRunTo xs k).all_variances = (List.range k).map (mixedVariance xs) := by
  induction k with
  | zero => rfl
  | succ k ih =>
    rw [otsuRunTo_succ, otsuStep_variances, otsuRunTo_input, ih,
      List.range_succ, List.map_append]
    rfl

/-- For datasets of length at least 3 the loop sees a finite mixed
variance (index 1 qualifies), so the returned best threshold and variance
are those of the first finite-variance index attaining the minimum. -/
theorem otsu_best_spec (xs : List ℚ) (h : 3 ≤ xs.length) :
    ∃ i, finiteSplit xs i ∧
      (otsu_method xs).1 = FP.val (xs.getD i 0) ∧
      (otsu_method xs).2.1 = FP.val (mvq xs i) ∧
      (∀ j, finiteSplit xs j → mvq xs i ≤ mvq xs j) ∧
      (∀ j, j < i → finiteSplit xs j → mvq xs i < mvq xs j) := by
  rcases otsuRunTo_best xs xs.length with ⟨hnone, -, -⟩ |
    ⟨i, hik, hfi, hthr, hvar, hmin, hfirst⟩
  · exact absurd ⟨le_refl 1, by omega⟩ (hnone 1 (by omega))
  · refine ⟨i, hfi, hthr, hvar, ?_, hfirst⟩
    intro j hfj
    obtain ⟨h1j, h2j⟩ := hfj
    exact hmin j (by omega) ⟨h1j, h2j⟩

/-! ## Claims -/

/-- C1, counterexample: on the one-element dataset `[5]` both evaluated
splits have `nan` mixed variance (one side of each split is empty), the
running best is never updated, and the returned best threshold is the
`np.nan` initialiser — not `dataset[i]` for any minimising index `i` (the
only candidate value is `5`). -/
theorem otsu_singleton_returns_nan :
    (otsu_method [(5 : ℚ)]).1 = FP.nan ∧ FP.nan ≠ FP.val 5 := by
  constructor
  · norm_num [otsu_method, otsuRun, otsuStep, mixedVariance, npVar, listVar,
      FP.lt, FP.add, FP.scale, List.range_succ]
  · intro h
    exact FP.noConfusion h

/-- C1 (amended): for every dataset of length at least 3, `otsu_method`
returns as best threshold the value `dataset[i]` and as best variance the
mixed variance at `i`, where `i` is the first-occurring index attaining
the minimum mixed variance over the splits whose mixed variance is finite
(both partitions nonempty, i.e. `1 ≤ i ≤ N-2`); the remaining splits have
`nan` mixed variance, which never wins the strictly-less comparison, and
on datasets of length 1 or 2 every split is `nan` and `np.nan` is
returned. -/
theorem otsu_selects_first_finite_minimum (xs : List ℚ)
    (h : 3 ≤ xs.length) :
    ∃ i, finiteSplit xs i ∧
      (otsu_method xs).1 = FP.val (xs.getD i 0) ∧
      (otsu_method xs).2.1 = FP.val (mvq xs i) ∧
      (∀ j, finiteSplit xs j → mvq xs i ≤ mvq xs j) ∧
      (∀ j, j < i → finiteSplit xs j → mvq xs i < mvq xs j) :=
  otsu_best_spec xs h

/-- Witness for C1's amended theorem at the dataset `[10,11,12,50,51,52]`. -/
theorem otsu_selects_first_finite_minimum_witness :
    3 ≤ ([(10 : ℚ), 11, 12, 50, 51, 52] : List ℚ).length ∧
    (∃ i, finiteSplit [(10 : ℚ), 11, 12, 50, 51, 52] i ∧
      (otsu_method [(10 : ℚ), 11, 12, 50, 51, 52]).1
        = FP.val (([(10 : ℚ), 11, 12, 50, 51, 52] : List ℚ).getD i 0) ∧
      (otsu_method [(10 : ℚ), 11, 12, 50, 51, 52]).2.1
        = FP.val (mvq [(10 : ℚ), 11, 12, 50, 51, 52] i) ∧
      (∀ j, finiteSplit [(10 : ℚ), 11, 12, 50, 51, 52] j →
        mvq [(10 : ℚ), 11, 12, 50, 51, 52] i
          ≤ mvq [(10 : ℚ), 11, 12, 50, 51, 52] j) ∧
      (∀ j, j < i → finiteSplit [(10 : ℚ), 11, 12, 50, 51, 52] j →
        mvq [(10 : ℚ), 11, 12, 50, 51, 52] i
          < mvq [(10 : ℚ), 11, 12, 50, 51, 52] j)) :=
  ⟨by norm_num,
    otsu_selects_first_finite_minimum [(10 : ℚ), 11, 12, 50, 51, 52]
      (by norm_num)⟩

/-- C2: the code's right-hand partition is `all_thresholds[threshold_index:-1]`,
which drops the last element, so the recorded mixed variance differs from
the claimed `leftWeight*var(left) + rightWeight*var(right-including-last)`.
At the dataset `[0,0,4]`, split index 1, the code computes `0` (right
slice `[0]`, weight `1/3`) while the claim's formula gives `8/3` (right
partition `[0,4]`, weight `2/3`). -/
theorem otsu_right_slice_drops_last :
    mixedVariance [(0 : ℚ), 0, 4] 1 = FP.val 0 ∧
    specMixedVariance [(0 : ℚ), 0, 4] 1 = 8 / 3 ∧
    (0 : ℚ) ≠ 8 / 3 := by
  refine ⟨?_, ?_, by norm_num⟩
  · norm_num [mixedVariance, npVar, listVar, FP.add, FP.scale]
  · norm_num [specMixedVariance, listVar]

/-- C3, counterexample: `np.var` of an empty slice is `nan`, not `0`. -/
theorem npVar_empty_is_nan :
    npVar ([] : List ℚ) = FP.nan ∧ FP.nan ≠ FP.val 0 := by
  exact ⟨rfl, fun h => FP.noConfusion h⟩

/-- C3 (amended): the variance of a single-element slice is `0`, but the
variance of an empty slice is `nan`, so at the degenerate boundary splits
`i = 0` and `i = N-1` the mixed variance is `nan` (the empty side
contributes `nan`, not `0`, since `0.0 * nan = nan`); `otsu_method` still
does not crash there, and a `nan` split never wins the strictly-less
comparison against the running best. -/
theorem variance_degenerate_splits (q : ℚ) (xs : List ℚ)
    (h : 1 ≤ xs.length) :
    npVar [q] = FP.val 0 ∧
    mixedVariance xs 0 = FP.nan ∧
    mixedVariance xs (xs.length - 1) = FP.nan ∧
    (∀ b : FP, FP.lt FP.nan b = false) := by
  refine ⟨?_, mixedVariance_zero xs, ?_, fun b => FP.lt_nan_left b⟩
  · rw [npVar_of_ne_nil _ (by simp), listVar_singleton]
  · exact mixedVariance_of_short xs (xs.length - 1) (by omega)

/-- Witness for C3's amended theorem at `q = 5`, dataset `[1,2]`. -/
theorem variance_degenerate_splits_witness :
    1 ≤ ([(1 : ℚ), 2] : List ℚ).length ∧
    (npVar [(5 : ℚ)] = FP.val 0 ∧
      mixedVariance [(1 : ℚ), 2] 0 = FP.nan ∧
      mixedVariance [(1 : ℚ), 2] (([(1 : ℚ), 2] : List ℚ).length - 1) = FP.nan ∧
      (∀ b : FP, FP.lt FP.nan b = false)) :=
  ⟨by norm_num, variance_degenerate_splits 5 [(1 : ℚ), 2] (by norm_num)⟩

/-- C4, counterexample: on the empty dataset `otsu_method` does not fail;
the loop body never runs and the function returns the initialisers
`(np.nan, np.inf, [])` as a normal result. -/
theorem otsu_empty_returns_normally :
    otsu_method ([] : List ℚ) = (FP.nan, FP.inf, ([] : List FP)) := rfl

/-- C4 (amended): called on an empty dataset, `otsu_method` raises no
error (the code defines no `InvalidInputError`); it returns normally with
best threshold `np.nan`, best mixed variance `np.inf`, and an empty
variance list. -/
theorem otsu_empty_result :
    (otsu_method ([] : List ℚ)).1 = FP.nan ∧
    (otsu_method ([] : List ℚ)).2.1 = FP.inf ∧
    (otsu_method ([] : List ℚ)).2.2 = [] :=
  ⟨rfl, rfl, rfl⟩

/-- C5, counterexample: on the two-element dataset `[1,2]` every split has
one empty side, every mixed variance is `nan`, and the returned best
threshold is the `np.nan` initialiser — not an element of the dataset. -/
theorem otsu_pair_threshold_not_element :
    (otsu_method [(1 : ℚ), 2]).1 = FP.nan ∧
    FP.nan ≠ FP.val 1 ∧ FP.nan ≠ FP.val 2 := by
  refine ⟨?_, fun h => FP.noConfusion h, fun h => FP.noConfusion h⟩
  norm_num [otsu_method, otsuRun, otsuStep, mixedVariance, npVar, listVar,
    FP.lt, FP.add, FP.scale, List.range_succ]

/-- C5 (amended): for every dataset of length at least 3 the returned best
threshold is an element of the dataset (the update always stores
`all_thresholds[threshold_index]`, never an interpolated value); on
datasets of length 1 or 2 the `np.nan` initialiser is returned instead. -/
theorem otsu_threshold_mem_dataset (xs : List ℚ) (h : 3 ≤ xs.length) :
    (otsu_method xs).1 ∈ xs.map FP.val := by
  obtain ⟨i, hfi, hthr, -, -, -⟩ := otsu_best_spec xs h
  have hi : i < xs.length := by
    obtain ⟨-, h2⟩ := hfi
    omega
  rw [hthr, List.getD_eq_getElem _ _ hi]
  exact List.mem_map.mpr ⟨xs[i], List.getElem_mem hi, rfl⟩

/-- Witness for C5's amended theorem at the dataset `[1,2,3]`. -/
theorem otsu_threshold_mem_dataset_witness :
    3 ≤ ([(1 : ℚ), 2, 3] : List ℚ).length ∧
    (otsu_method [(1 : ℚ), 2, 3]).1 ∈ ([(1 : ℚ), 2, 3] : List ℚ).map FP.val :=
  ⟨by norm_num, otsu_threshold_mem_dataset [(1 : ℚ), 2, 3] (by norm_num)⟩

/-- C6, counterexample: for `[10,11,12,50,51,52]` the mixed variance at
the boundary split 0 is `nan`, so the winning split's variance is not
strictly less than the variance "at every other candidate split" — the
strictly-less comparison against a `nan` entry is false. -/
theorem otsu_clusters_not_lt_nan_split :
    mixedVariance [(10 : ℚ), 11, 12, 50, 51, 52] 0 = FP.nan ∧
    FP.lt (mixedVariance [(10 : ℚ), 11, 12, 50, 51, 52] 3)
      (mixedVariance [(10 : ℚ), 11, 12, 50, 51, 52] 0) = false := by
  constructor
  · exact mixedVariance_zero _
  · rw [mixedVariance_zero]
    cases mixedVariance [(10 : ℚ), 11, 12, 50, 51, 52] 3 <;> rfl

/-- C6 (amended): for `[10,11,12,50,51,52]` the returned threshold is `50`
(the first element of the upper cluster, split index 3) with best mixed
variance `5/12`, and `5/12` is strictly less than the mixed variance at
every other split whose mixed variance is finite (indices 1, 2, 4); the
boundary splits 0 and 5 carry `nan` instead. -/
theorem otsu_clusters_threshold :
    (otsu_method [(10 : ℚ), 11, 12, 50, 51, 52]).1 = FP.val 50 ∧
    (otsu_method [(10 : ℚ), 11, 12, 50, 51, 52]).2.1 = FP.val (5 / 12) ∧
    mixedVariance [(10 : ℚ), 11, 12, 50, 51, 52] 3 = FP.val (5 / 12) ∧
    FP.lt (mixedVariance [(10 : ℚ), 11, 12, 50, 51, 52] 3)
      (mixedVariance [(10 : ℚ), 11, 12, 50, 51, 52] 1) = true ∧
    FP.lt (mixedVariance [(10 : ℚ), 11, 12, 50, 51, 52] 3)
      (mixedVariance [(10 : ℚ), 11, 12, 50, 51, 52] 2) = true ∧
    FP.lt (mixedVariance [(10 : ℚ), 11, 12, 50, 51, 52] 3)
      (mixedVariance [(10 : ℚ), 11, 12, 50, 51, 52] 4) = true ∧
    mixedVariance [(10 : ℚ), 11, 12, 50, 51, 52] 0 = FP.nan ∧
    mixedVariance [(10 : ℚ), 11, 12, 50, 51, 52] 5 = FP.nan := by
  refine ⟨?_, ?_, ?_, ?_, ?_, ?_, ?_, ?_⟩ <;>
    norm_num [otsu_method, otsuRun, otsuStep, mixedVariance, npVar, listVar,
      FP.lt, FP.add, FP.scale, List.range_succ]

/-- C7, counterexample: for the uniform dataset `[20,20,20,20]` the mixed
variance at split 0 is `nan` (empty left slice), not `0`. -/
theorem otsu_uniform_first_split_nan :
    mixedVariance [(20 : ℚ), 20, 20, 20] 0 = FP.nan ∧ FP.nan ≠ FP.val 0 :=
  ⟨mixedVariance_zero _, fun h => FP.noConfusion h⟩

/-- C7 (amended): for `[20,20,20,20]` the mixed variance is `0` at the
interior splits 1 and 2 and `nan` at the boundary splits 0 and 3; the
returned threshold is `20`, selected at split index 1, the first split
with a finite mixed variance (the strictly-less tie-break keeps it over
the equal variance at split 2), with best mixed variance `0`. -/
theorem otsu_uniform_result :
    otsu_method [(20 : ℚ), 20, 20, 20]
      = (FP.val 20, FP.val 0, [FP.nan, FP.val 0, FP.val 0, FP.nan]) := by
  norm_num [otsu_method, otsuRun, otsuStep, mixedVariance, npVar, listVar,
    FP.lt, FP.add, FP.scale, List.range_succ]

/-- C8: for every dataset the returned `all_variances` list is exactly the
mixed variance at each split index `0, 1, ..., N-1` in that order, hence
has exactly `N` entries. -/
theorem otsu_curve_length_and_order (xs : List ℚ) :
    (otsu_method xs).2.2 = (List.range xs.length).map (mixedVariance xs) ∧
    (otsu_method xs).2.2.length = xs.length := by
  have h : (otsu_method xs).2.2 = (otsuRunTo xs xs.length).all_variances := rfl
  rw [h, otsuRunTo_variances]
  exact ⟨rfl, by rw [List.length_map, List.length_range]⟩

/-- C9: `otsu_method` never mutates its input: every operation the loop
performs on `all_thresholds` (slicing, `len`, indexing) is a read, so the
input list carried through the loop state is returned unchanged, element
for element, by the full run. -/
theorem otsu_preserves_input (xs : List ℚ) : (otsuRun xs).input = xs := by
  rw [otsuRun_eq_runTo]
  exact otsuRunTo_input xs xs.length

/-- C10: on the dataset `[41, 52]` (maximum sample with even floor equal
to the computed `max_speed_range`), the bin keys stop strictly below
`max_speed_range = 52`, the maximum sample's key `52` is absent, the
dictionary lookup returns nothing and the append fails: the whole run of
`quantize_to_bins` raises (modelled as `none`). -/
theorem quantize_missing_top_bin :
    quantize_to_bins [(41 : ℚ), 52] = none ∧
    maxSpeedRange [(41 : ℚ), 52] = 52 ∧
    sampleKey 52 = 52 ∧
    (52 : ℤ) ∉ binKeys (minSpeedRange [(41 : ℚ), 52])
      (maxSpeedRange [(41 : ℚ), 52]) := by
  refine ⟨?_, ?_, ?_, ?_⟩
  · norm_num [quantize_to_bins, minSpeedRange, maxSpeedRange, binKeys,
      mkBinsDict, sampleKey, placeAll, dictAppend, List.range_succ]
  · norm_num [maxSpeedRange]
  · norm_num [sampleKey]
  · norm_num [minSpeedRange, maxSpeedRange, binKeys]
    omega
